import Mathlib

/-!
Verification of the invjsible bit codec and compression-selection logic.

The development shallowly embeds the core of invjsible.js:

* characters are represented by their Unicode code points (`Nat`); every
  character the codec emits lies in the BMP outside the surrogate range, so a
  JS string (a sequence of UTF-16 code units) is faithfully a `List Nat`;
* byte buffers are `List Nat` whose entries are bytes (values below 256 where
  a Node `Buffer` guarantees it);
* the external Brotli compressor is an abstract parameter
  `List Nat → Except ε (List Nat)`: the code awaits it and it may reject.

Each definition mirrors the correspondingly named JavaScript function.
-/

namespace Invjsible

/-- Code point of the bit-0 data symbol, `invisibleChars.ZERO` (U+200B). -/
def ZERO : Nat := 0x200B

/-- Code point of the bit-1 data symbol, `invisibleChars.ONE` (U+200C). -/
def ONE : Nat := 0x200C

/-- Code point of the marker `invisibleChars.COMPRESS_BEFORE` (U+200D). -/
def COMPRESS_BEFORE : Nat := 0x200D

/-- Code point of the marker `invisibleChars.COMPRESS_AFTER` (U+2060). -/
def COMPRESS_AFTER : Nat := 0x2060

/-- Binary digits of `n`, most significant first, by repeated division as JS
`Number.prototype.toString(2)` produces them; `fuel` only forces structural
recursion and never runs out when `fuel ≥ n`. Empty for `n = 0`. -/
def bitsOfAux : Nat → Nat → List Bool
  | 0, _ => []
  | fuel + 1, n => if n = 0 then [] else bitsOfAux fuel (n / 2) ++ [decide (n % 2 = 1)]

/-- JS `n.toString(2)` for a nonnegative integer, with the character digits
represented as booleans (`false` for the digit 0, `true` for 1). -/
def toString2 (n : Nat) : List Bool := if n = 0 then [false] else bitsOfAux n n

/-- JS `String.prototype.padStart(8, the 0 digit)` on a digit string. -/
def padStart8 (l : List Bool) : List Bool := List.replicate (8 - l.length) false ++ l

/-- Body of the `encodeToInvisible` loop for one byte:
`byte.toString(2).padStart(8, ...)`, then each digit becomes `ZERO` when it is
the 0 digit and `ONE` otherwise. -/
def encodeByte (b : Nat) : List Nat :=
  (padStart8 (toString2 b)).map (fun bit => if bit = false then ZERO else ONE)

/-- Function `encodeToInvisible(buffer)`: concatenation of the per-byte
encodings, in buffer order. -/
def encodeToInvisible (buffer : List Nat) : List Nat :=
  buffer.flatMap encodeByte

/-- Value of the `compressionMethod` field of the decode result: the JS code
uses the strings BEFORE and AFTER, or null (modelled by `Option`). -/
inductive CompressionMethod : Type
  | BEFORE : CompressionMethod
  | AFTER : CompressionMethod
deriving DecidableEq

/-- Result record of `decodeFromInvisible`. -/
structure DecodeResult : Type where
  buffer : List Nat
  compressionMethod : Option CompressionMethod
deriving DecidableEq

/-- Inner loop of `decodeFromInvisible` over one group of at most 8
characters: append the 0 digit for `ZERO`, the 1 digit for `ONE`, and skip any
other character. -/
def chunkBits (chunk : List Nat) : List Bool :=
  chunk.filterMap (fun c =>
    if c = ZERO then some false else if c = ONE then some true else none)

/-- JS `parseInt(byte, 2)` on a digit string produced by the inner loop. -/
def bitsToNat (bits : List Bool) : Nat :=
  bits.foldl (fun acc bit => 2 * acc + (if bit then 1 else 0)) 0

/-- Outer loop of `decodeFromInvisible`: advance through the input 8
characters at a time (`i += 8`); the group is the at-most-8 characters at the
current position, and a byte is pushed only when the collected digit string
has length exactly 8. -/
def decodeChunks : List Nat → List Nat
  | c1 :: c2 :: c3 :: c4 :: c5 :: c6 :: c7 :: c8 :: rest =>
      (if (chunkBits [c1, c2, c3, c4, c5, c6, c7, c8]).length = 8
       then [bitsToNat (chunkBits [c1, c2, c3, c4, c5, c6, c7, c8])]
       else []) ++ decodeChunks rest
  | tail =>
      if (chunkBits tail).length = 8 then [bitsToNat (chunkBits tail)] else []

/-- Marker handling at the top of `decodeFromInvisible`: `startsWith` the
`COMPRESS_BEFORE` marker, else `startsWith` the `COMPRESS_AFTER` marker, else
no marker; a detected marker is removed with `slice(1)`. -/
def stripMarker (encoded : List Nat) : Option CompressionMethod × List Nat :=
  match encoded with
  | c :: rest =>
      if c = COMPRESS_BEFORE then (some CompressionMethod.BEFORE, rest)
      else if c = COMPRESS_AFTER then (some CompressionMethod.AFTER, rest)
      else (none, c :: rest)
  | [] => (none, [])

/-- Function `decodeFromInvisible(encoded)`. -/
def decodeFromInvisible (encoded : List Nat) : DecodeResult :=
  { buffer := decodeChunks (stripMarker encoded).2
    compressionMethod := (stripMarker encoded).1 }

/-- UTF-8 serialization of one code point (no code point of the codec is a
surrogate, so the scalar-value encoding applies). -/
def utf8CharBytes (c : Nat) : List Nat :=
  if c < 0x80 then [c]
  else if c < 0x800 then [0xC0 + c / 64, 0x80 + c % 64]
  else if c < 0x10000 then [0xE0 + c / 4096, 0x80 + c / 64 % 64, 0x80 + c % 64]
  else [0xF0 + c / 262144, 0x80 + c / 4096 % 64, 0x80 + c / 64 % 64, 0x80 + c % 64]

/-- JS `Buffer.from(str, the utf8 label)`: the UTF-8 bytes of a string. -/
def utf8Bytes (s : List Nat) : List Nat :=
  s.flatMap utf8CharBytes

/-- Value of the `methodUsed` variable in `encode`. -/
inductive MethodUsed : Type
  | COMPRESS_BEFORE : MethodUsed
  | COMPRESS_AFTER : MethodUsed
  | NONE : MethodUsed
deriving DecidableEq

/-- Content-selection outcome of `encode`: the string written (or wrapped)
and the method tag. -/
structure EncodeResult : Type where
  finalContent : List Nat
  methodUsed : MethodUsed
deriving DecidableEq

instance exceptDecEq {ε α : Type} [DecidableEq ε] [DecidableEq α] :
    DecidableEq (Except ε α) := fun x y =>
  match x, y with
  | .ok a, .ok b =>
      if h : a = b then .isTrue (congrArg Except.ok h)
      else .isFalse (fun c => h (Except.ok.inj c))
  | .error a, .error b =>
      if h : a = b then .isTrue (congrArg Except.error h)
      else .isFalse (fun c => h (Except.error.inj c))
  | .ok _, .error _ => .isFalse Except.noConfusion
  | .error _, .ok _ => .isFalse Except.noConfusion

/-- Selection core of `encode(inputFile, outputFile, options)`: everything
from the first `compressBuffer` await to the assignment of `finalContent` and
`methodUsed`, with file I/O and logging dropped. Both compressor calls happen
before the `if (compress)` test, exactly as in the source, and either await
may reject (`Except.error`), in which case `encode` itself rejects. -/
def encodeSelect {ε : Type} (compressBuffer : List Nat → Except ε (List Nat))
    (originalBuffer : List Nat) (compress runable : Bool) :
    Except ε EncodeResult := do
  let compressedBeforeBuffer ← compressBuffer originalBuffer
  let encodedCompressedBefore := encodeToInvisible compressedBeforeBuffer
  let finalSizeMethod1 := (utf8Bytes encodedCompressedBefore).length
  let encodedOriginal := encodeToInvisible originalBuffer
  let encodedOriginalBuffer := utf8Bytes encodedOriginal
  let compressedAfterBuffer ← compressBuffer encodedOriginalBuffer
  let finalSizeMethod2 := compressedAfterBuffer.length
  let encodedWithoutCompression := encodeToInvisible originalBuffer
  if compress then
    if runable || finalSizeMethod1 ≤ finalSizeMethod2 then
      pure { finalContent := COMPRESS_BEFORE :: encodedCompressedBefore
             methodUsed := MethodUsed.COMPRESS_BEFORE }
    else
      pure { finalContent := COMPRESS_AFTER :: encodedOriginal
             methodUsed := MethodUsed.COMPRESS_AFTER }
  else
    pure { finalContent := encodedWithoutCompression
           methodUsed := MethodUsed.NONE }

/-- Modelled from the spec, for comparison with `encodeToInvisible` only: for
each byte, emit its 8 bits most-significant-bit first, the symbol bound to the
bit value for each bit. -/
def encodeSpec (buffer : List Nat) : List Nat :=
  buffer.flatMap (fun b =>
    (List.range 8).map (fun k => if Nat.testBit b (7 - k) then ONE else ZERO))

/-- Compressor instance that always succeeds and returns its input doubled,
so that every compressed candidate measures strictly larger than the direct
encoding. -/
def dblComp : List Nat → Except Unit (List Nat) := fun b => Except.ok (b ++ b)

/-- Compressor instance that always rejects. -/
def failComp : List Nat → Except Unit (List Nat) := fun _ => Except.error ()

/-! Helper lemmas. -/

theorem foldl_bits_acc (l : List Bool) :
    ∀ acc : Nat,
      l.foldl (fun acc bit => 2 * acc + (if bit then 1 else 0)) acc =
        acc * 2 ^ l.length + bitsToNat l := by
  induction l with
  | nil => intro acc; simp [bitsToNat]
  | cons a l ih =>
      intro acc
      have h1 := ih (2 * acc + (if a then 1 else 0))
      have h2 := ih (if a then 1 else 0)
      simp only [List.foldl_cons, List.length_cons, bitsToNat,
        Nat.mul_zero, Nat.zero_add] at *
      rw [h1, h2, pow_succ]
      ring

theorem bitsToNat_lt (l : List Bool) : bitsToNat l < 2 ^ l.length := by
  induction l with
  | nil => simp [bitsToNat]
  | cons a l ih =>
      have h := foldl_bits_acc l (if a then 1 else 0)
      have ha : (if a then 1 else 0) ≤ 1 := by split <;> omega
      have hp : 0 < 2 ^ l.length := Nat.pos_pow_of_pos _ (by omega)
      simp only [bitsToNat, List.foldl_cons, List.length_cons,
        Nat.mul_zero, Nat.zero_add] at *
      rw [h, pow_succ]
      nlinarith

theorem chunkBits_length_le (l : List Nat) : (chunkBits l).length ≤ l.length :=
  List.length_filterMap_le _ _

theorem decodeChunks_cons8 (c1 c2 c3 c4 c5 c6 c7 c8 : Nat) (rest : List Nat) :
    decodeChunks (c1 :: c2 :: c3 :: c4 :: c5 :: c6 :: c7 :: c8 :: rest) =
      (if (chunkBits [c1, c2, c3, c4, c5, c6, c7, c8]).length = 8
       then [bitsToNat (chunkBits [c1, c2, c3, c4, c5, c6, c7, c8])]
       else []) ++ decodeChunks rest := rfl

theorem exists_eight (l : List Nat) (h : 8 ≤ l.length) :
    ∃ c1 c2 c3 c4 c5 c6 c7 c8 t,
      l = c1 :: c2 :: c3 :: c4 :: c5 :: c6 :: c7 :: c8 :: t := by
  rcases l with _ | ⟨c1, l⟩; · simp at h
  rcases l with _ | ⟨c2, l⟩; · simp at h
  rcases l with _ | ⟨c3, l⟩; · simp at h
  rcases l with _ | ⟨c4, l⟩; · simp at h
  rcases l with _ | ⟨c5, l⟩; · simp at h
  rcases l with _ | ⟨c6, l⟩; · simp at h
  rcases l with _ | ⟨c7, l⟩; · simp at h
  rcases l with _ | ⟨c8, l⟩; · simp at h
  exact ⟨c1, c2, c3, c4, c5, c6, c7, c8, l, rfl⟩

theorem shortIf (l : List Nat) (h : l.length < 8) :
    (if (chunkBits l).length = 8 then [bitsToNat (chunkBits l)] else []) = [] := by
  have := chunkBits_length_le l
  rw [if_neg]
  omega

theorem decodeChunks_short (l : List Nat) (h : l.length < 8) : decodeChunks l = [] := by
  rcases l with _ | ⟨c1, l⟩; · rfl
  rcases l with _ | ⟨c2, l⟩; · exact shortIf _ (by simp)
  rcases l with _ | ⟨c3, l⟩; · exact shortIf _ (by simp)
  rcases l with _ | ⟨c4, l⟩; · exact shortIf _ (by simp)
  rcases l with _ | ⟨c5, l⟩; · exact shortIf _ (by simp)
  rcases l with _ | ⟨c6, l⟩; · exact shortIf _ (by simp)
  rcases l with _ | ⟨c7, l⟩; · exact shortIf _ (by simp)
  rcases l with _ | ⟨c8, l⟩; · exact shortIf _ (by simp)
  simp at h
  omega

theorem decodeChunks_append8 (w rest : List Nat) (hw : w.length = 8) :
    decodeChunks (w ++ rest) =
      (if (chunkBits w).length = 8 then [bitsToNat (chunkBits w)] else []) ++
        decodeChunks rest := by
  obtain ⟨c1, c2, c3, c4, c5, c6, c7, c8, t, rfl⟩ := exists_eight w (by omega)
  simp only [List.length_cons] at hw
  have ht : t = [] := List.eq_nil_of_length_eq_zero (by omega)
  subst ht
  exact decodeChunks_cons8 c1 c2 c3 c4 c5 c6 c7 c8 rest

theorem decodeChunks_append_small :
    ∀ (n : Nat) (s t : List Nat), s.length = 8 * n → t.length < 8 →
      decodeChunks (s ++ t) = decodeChunks s := by
  intro n
  induction n with
  | zero =>
      intro s t hs ht
      have : s = [] := List.eq_nil_of_length_eq_zero (by omega)
      subst this
      simp only [List.nil_append]
      exact decodeChunks_short t ht
  | succ n ih =>
      intro s t hs ht
      obtain ⟨c1, c2, c3, c4, c5, c6, c7, c8, r, rfl⟩ := exists_eight s (by omega)
      have hr : r.length = 8 * n := by simp at hs; omega
      simp only [List.cons_append]
      rw [decodeChunks_cons8, decodeChunks_cons8, ih r t hr ht]

theorem mem_decodeChunks_lt :
    ∀ (n : Nat) (l : List Nat), l.length = n → ∀ b ∈ decodeChunks l, b < 256 := by
  intro n
  induction n using Nat.strong_induction_on with
  | _ n ih =>
      intro l hl b hb
      by_cases h8 : l.length < 8
      · rw [decodeChunks_short l h8] at hb
        simp at hb
      · obtain ⟨c1, c2, c3, c4, c5, c6, c7, c8, t, rfl⟩ := exists_eight l (by omega)
        rw [decodeChunks_cons8] at hb
        rcases List.mem_append.mp hb with h | h
        · rcases Nat.decEq (chunkBits [c1, c2, c3, c4, c5, c6, c7, c8]).length 8 with hc | hc
          · rw [if_neg hc] at h
            simp at h
          · rw [if_pos hc] at h
            have hlt := bitsToNat_lt (chunkBits [c1, c2, c3, c4, c5, c6, c7, c8])
            rw [hc] at hlt
            simp at h
            omega
        · have hlen : t.length < n := by simp at hl; omega
          exact ih t.length hlen t rfl b h

set_option maxRecDepth 10000 in
theorem encodeByte_facts :
    ∀ b < 256, (encodeByte b).length = 8 ∧
      (chunkBits (encodeByte b)).length = 8 ∧
      bitsToNat (chunkBits (encodeByte b)) = b ∧
      encodeByte b =
        (List.range 8).map (fun k => if Nat.testBit b (7 - k) then ONE else ZERO) := by
  decide

theorem encodeByte_mem (b c : Nat) (h : c ∈ encodeByte b) : c = ZERO ∨ c = ONE := by
  obtain ⟨bit, _, hbit⟩ := List.mem_map.mp h
  cases bit
  · left; rw [← hbit]; rfl
  · right; rw [← hbit]; rfl

theorem roundtrip_chunks :
    ∀ buffer : List Nat, (∀ b ∈ buffer, b < 256) →
      decodeChunks (encodeToInvisible buffer) = buffer := by
  intro buffer
  induction buffer with
  | nil => intro _; rfl
  | cons b bs ih =>
      intro h
      have hb := h b (by simp)
      obtain ⟨hlen, hclen, hval, _⟩ := encodeByte_facts b hb
      have hrest : encodeToInvisible (b :: bs) = encodeByte b ++ encodeToInvisible bs := by
        simp [encodeToInvisible]
      rw [hrest, decodeChunks_append8 _ _ hlen, if_pos hclen, hval,
        ih (fun x hx => h x (by simp [hx]))]
      rfl

theorem stripMarker_encode (buffer : List Nat) (h : ∀ b ∈ buffer, b < 256) :
    stripMarker (encodeToInvisible buffer) = (none, encodeToInvisible buffer) := by
  rcases buffer with _ | ⟨b, bs⟩
  · rfl
  · have hb := h b (by simp)
    obtain ⟨hlen, _, _, _⟩ := encodeByte_facts b hb
    have hrest : encodeToInvisible (b :: bs) = encodeByte b ++ encodeToInvisible bs := by
      simp [encodeToInvisible]
    rcases he : encodeByte b with _ | ⟨c, t⟩
    · rw [he] at hlen; simp at hlen
    · have hc : c ∈ encodeByte b := by rw [he]; simp
      have hz := encodeByte_mem b c hc
      have h1 : c ≠ COMPRESS_BEFORE := by rcases hz with rfl | rfl <;> decide
      have h2 : c ≠ COMPRESS_AFTER := by rcases hz with rfl | rfl <;> decide
      rw [hrest, he]
      simp only [List.cons_append, stripMarker, if_neg h1, if_neg h2]

theorem length_filterMap_lt {α β : Type} (f : α → Option β) (l : List α)
    (h : ∃ c ∈ l, f c = none) : (List.filterMap f l).length < l.length := by
  induction l with
  | nil => simp at h
  | cons a l ih =>
      rcases h with ⟨c, hc, hnone⟩
      rcases List.mem_cons.mp hc with rfl | hmem
      · rw [List.filterMap_cons, hnone]
        have := List.length_filterMap_le f l
        simp
        omega
      · rw [List.filterMap_cons]
        cases f a
        · have := ih ⟨c, hmem, hnone⟩
          simp
          omega
        · have := ih ⟨c, hmem, hnone⟩
          simp
          omega

theorem length_filterMap_eq {α β : Type} (f : α → Option β) (l : List α)
    (h : ∀ c ∈ l, (f c).isSome) : (List.filterMap f l).length = l.length := by
  induction l with
  | nil => simp
  | cons a l ih =>
      have ha := h a (by simp)
      rcases hfa : f a with _ | v
      · rw [hfa] at ha; simp at ha
      · rw [List.filterMap_cons, hfa]
        simp [ih (fun c hc => h c (by simp [hc]))]

/-! Claim theorems. -/

/-- C1: decoding the unmarked encoding of any byte buffer returns exactly the
buffer, with no compression marker detected. -/
theorem roundtrip_identity (buffer : List Nat) (h : ∀ b ∈ buffer, b < 256) :
    decodeFromInvisible (encodeToInvisible buffer) =
      { buffer := buffer, compressionMethod := none } := by
  rw [decodeFromInvisible, stripMarker_encode buffer h]
  exact congrArg (fun x => DecodeResult.mk x none) (roundtrip_chunks buffer h)

theorem roundtrip_identity_witness :
    decodeFromInvisible (encodeToInvisible [72, 101, 255, 0]) =
      { buffer := [72, 101, 255, 0], compressionMethod := none } :=
  roundtrip_identity [72, 101, 255, 0] (by decide)

/-- C2: evaluation at the failing input. With a compressor that doubles its
input, both compressed candidates serialize to 48 bytes while the direct
encoding of the one-byte buffer serializes to 24 bytes, yet the selection
branch of encode picks COMPRESS_BEFORE, not the direct NONE encoding, so the
selection does not pick the smallest measured candidate. -/
theorem selection_ignores_direct :
    (utf8Bytes (encodeToInvisible [0])).length = 24 ∧
    dblComp [0] = Except.ok [0, 0] ∧
    (utf8Bytes (encodeToInvisible [0, 0])).length = 48 ∧
    dblComp (utf8Bytes (encodeToInvisible [0])) =
      Except.ok (utf8Bytes (encodeToInvisible [0]) ++ utf8Bytes (encodeToInvisible [0])) ∧
    (utf8Bytes (encodeToInvisible [0]) ++ utf8Bytes (encodeToInvisible [0])).length = 48 ∧
    encodeSelect dblComp [0] true false =
      Except.ok { finalContent := COMPRESS_BEFORE :: encodeToInvisible [0, 0]
                  methodUsed := MethodUsed.COMPRESS_BEFORE } := by
  decide

/-- C3 counterexample: with a compressor that always rejects, the selection
core of encode rejects as a whole instead of falling back to the direct
NONE encoding; the compressor failure even aborts an encode that did not ask
for compression. -/
theorem compress_failure_aborts :
    encodeSelect failComp [0] true false = Except.error () ∧
    encodeSelect failComp [0] true false ≠
      Except.ok { finalContent := encodeToInvisible [0]
                  methodUsed := MethodUsed.NONE } ∧
    encodeSelect failComp [0] false false = Except.error () := by
  decide

/-- C3 amended: a compressor error propagates out of the selection core of
encode, whatever the flags; there is no fallback to the NONE strategy. -/
theorem compress_error_propagates {ε : Type} (comp : List Nat → Except ε (List Nat))
    (b : List Nat) (compress runable : Bool) (e : ε) (h : comp b = Except.error e) :
    encodeSelect comp b compress runable = Except.error e := by
  simp only [encodeSelect, h]
  rfl

theorem compress_error_propagates_witness :
    encodeSelect failComp [3] true true = Except.error () :=
  compress_error_propagates failComp [3] true true () rfl

/-- C4: encode is the MSB-first bit expansion: it agrees with the
specification map on every byte buffer, emits 8 characters per byte, and
behaves as stated on the three concrete inputs. -/
theorem encode_msb_first :
    (∀ buffer : List Nat, (∀ b ∈ buffer, b < 256) →
        encodeToInvisible buffer = encodeSpec buffer ∧
        (encodeToInvisible buffer).length = 8 * buffer.length) ∧
    encodeToInvisible [0xFF] = List.replicate 8 ONE ∧
    encodeToInvisible [0x00] = List.replicate 8 ZERO ∧
    encodeToInvisible [] = [] := by
  refine ⟨?_, by decide, by decide, rfl⟩
  intro buffer
  induction buffer with
  | nil => intro _; exact ⟨rfl, rfl⟩
  | cons b bs ih =>
      intro h
      have hb := h b (by simp)
      obtain ⟨hlen, _, _, hspec⟩ := encodeByte_facts b hb
      obtain ⟨ih1, ih2⟩ := ih (fun x hx => h x (by simp [hx]))
      constructor
      · simp only [encodeToInvisible, encodeSpec, List.flatMap_cons] at *
        rw [hspec, ih1]
      · have : encodeToInvisible (b :: bs) = encodeByte b ++ encodeToInvisible bs := by
          simp [encodeToInvisible]
        rw [this, List.length_append, hlen, ih2, List.length_cons]
        ring

theorem encode_msb_first_witness :
    encodeToInvisible [1, 2] = encodeSpec [1, 2] ∧
      (encodeToInvisible [1, 2]).length = 8 * 2 :=
  encode_msb_first.1 [1, 2] (by decide)

/-- C5: an incomplete trailing group after the optional marker contributes no
bytes and raises no error; 7 data characters decode to the empty buffer and
16 data characters decode to exactly 2 bytes. -/
theorem trailing_group_dropped :
    (∀ s t : List Nat, s.length % 8 = 0 → t.length < 8 →
        decodeChunks (s ++ t) = decodeChunks s) ∧
    (decodeFromInvisible (List.replicate 7 ZERO)).buffer = [] ∧
    (decodeFromInvisible (List.replicate 8 ONE ++ List.replicate 8 ZERO)).buffer =
      [255, 0] := by
  refine ⟨?_, by decide, by decide⟩
  intro s t hs ht
  exact decodeChunks_append_small (s.length / 8) s t (by omega) ht

theorem trailing_group_dropped_witness :
    decodeChunks (List.replicate 8 ZERO ++ List.replicate 3 ONE) =
      decodeChunks (List.replicate 8 ZERO) :=
  trailing_group_dropped.1 (List.replicate 8 ZERO) (List.replicate 3 ONE)
    (by decide) (by decide)

/-- C6: decode is total; it maps the empty string to the empty buffer with no
marker, and every byte it ever produces is a valid byte below 256. -/
theorem decode_total_empty :
    decodeFromInvisible [] = { buffer := [], compressionMethod := none } ∧
    ∀ s : List Nat, ∀ b ∈ (decodeFromInvisible s).buffer, b < 256 := by
  refine ⟨rfl, ?_⟩
  intro s b hb
  exact mem_decodeChunks_lt (stripMarker s).2.length (stripMarker s).2 rfl b hb

theorem decode_total_empty_witness :
    255 ∈ (decodeFromInvisible (List.replicate 8 ONE)).buffer ∧ (255 : Nat) < 256 :=
  ⟨by decide, decode_total_empty.2 (List.replicate 8 ONE) 255 (by decide)⟩

/-- C7: a leading COMPRESS_BEFORE marker yields strategy BEFORE on the rest,
a leading COMPRESS_AFTER yields AFTER, and any stream not starting with a
known marker decodes whole with no marker detected. -/
theorem marker_detection :
    (∀ s : List Nat, decodeFromInvisible (COMPRESS_BEFORE :: s) =
        { buffer := decodeChunks s,
          compressionMethod := some CompressionMethod.BEFORE }) ∧
    (∀ s : List Nat, decodeFromInvisible (COMPRESS_AFTER :: s) =
        { buffer := decodeChunks s,
          compressionMethod := some CompressionMethod.AFTER }) ∧
    (∀ s : List Nat, s.head? ≠ some COMPRESS_BEFORE → s.head? ≠ some COMPRESS_AFTER →
        decodeFromInvisible s = { buffer := decodeChunks s, compressionMethod := none }) := by
  refine ⟨fun s => rfl, fun s => ?_, fun s h1 h2 => ?_⟩
  · rw [decodeFromInvisible, stripMarker]
    rw [if_neg (by decide), if_pos rfl]
  · rcases s with _ | ⟨c, t⟩
    · rfl
    · simp only [List.head?] at h1 h2
      have hc1 : c ≠ COMPRESS_BEFORE := fun hc => h1 (by rw [hc])
      have hc2 : c ≠ COMPRESS_AFTER := fun hc => h2 (by rw [hc])
      rw [decodeFromInvisible, stripMarker]
      rw [if_neg hc1, if_neg hc2]

theorem marker_detection_witness :
    decodeFromInvisible [ZERO] =
      { buffer := decodeChunks [ZERO], compressionMethod := none } :=
  marker_detection.2.2 [ZERO] (by decide) (by decide)

/-- C8: the selection core of encode is a pure function of the input bytes
for a fixed compressor and flags: identical inputs with compression enabled
give identical output content and the same strategy tag. -/
theorem selector_deterministic {ε : Type} (comp : List Nat → Except ε (List Nat))
    (b1 b2 : List Nat) (runable : Bool) (h : b1 = b2) :
    encodeSelect comp b1 true runable = encodeSelect comp b2 true runable ∧
    (encodeSelect comp b1 true runable).map EncodeResult.finalContent =
      (encodeSelect comp b2 true runable).map EncodeResult.finalContent ∧
    (encodeSelect comp b1 true runable).map EncodeResult.methodUsed =
      (encodeSelect comp b2 true runable).map EncodeResult.methodUsed := by
  rw [h]
  exact ⟨rfl, rfl, rfl⟩

theorem selector_deterministic_witness :
    encodeSelect dblComp [1, 2] true false = encodeSelect dblComp [1, 2] true false :=
  (selector_deterministic dblComp [1, 2] [1, 2] false rfl).1

/-- C9: every character the encoder emits is one of the two data symbols and
never a compression marker, so an unmarked stream cannot begin with one. -/
theorem encode_alphabet (buffer : List Nat) :
    ∀ c ∈ encodeToInvisible buffer,
      (c = ZERO ∨ c = ONE) ∧ c ≠ COMPRESS_BEFORE ∧ c ≠ COMPRESS_AFTER := by
  intro c hc
  obtain ⟨b, _, hb⟩ := List.mem_flatMap.mp hc
  have hz := encodeByte_mem b c hb
  refine ⟨hz, ?_, ?_⟩ <;> rcases hz with rfl | rfl <;> decide

theorem encode_alphabet_witness :
    ((ZERO = ZERO ∨ ZERO = ONE) ∧ ZERO ≠ COMPRESS_BEFORE ∧ ZERO ≠ COMPRESS_AFTER) :=
  encode_alphabet [5] ZERO (by decide)

/-- C10: decode walks fixed consecutive 8-character windows; a full window
containing an unrecognized character accumulates fewer than 8 digits and
yields no byte while later windows decode unaffected, and a fully recognized
window yields exactly its byte. -/
theorem window_skips_unrecognized :
    (∀ w rest : List Nat, w.length = 8 → (∃ c ∈ w, c ≠ ZERO ∧ c ≠ ONE) →
        decodeChunks (w ++ rest) = decodeChunks rest) ∧
    (∀ w rest : List Nat, w.length = 8 → (∀ c ∈ w, c = ZERO ∨ c = ONE) →
        decodeChunks (w ++ rest) = bitsToNat (chunkBits w) :: decodeChunks rest) := by
  constructor
  · intro w rest hw ⟨c, hc, hcz, hco⟩
    rw [decodeChunks_append8 w rest hw]
    have hlt : (chunkBits w).length < 8 := by
      unfold chunkBits
      rw [← hw]
      exact length_filterMap_lt _ w ⟨c, hc, by simp [if_neg hcz, if_neg hco]⟩
    rw [if_neg (by omega)]
    rfl
  · intro w rest hw hall
    rw [decodeChunks_append8 w rest hw]
    have heq : (chunkBits w).length = 8 := by
      rw [← hw]
      apply length_filterMap_eq
      intro c hc
      rcases hall c hc with rfl | rfl <;> decide
    rw [if_pos heq]
    rfl

theorem window_skips_unrecognized_witness :
    decodeChunks ([ZERO, ZERO, ZERO, ZERO, ZERO, ZERO, ZERO, 42] ++
        List.replicate 8 ONE) =
      decodeChunks (List.replicate 8 ONE) :=
  window_skips_unrecognized.1 [ZERO, ZERO, ZERO, ZERO, ZERO, ZERO, ZERO, 42]
    (List.replicate 8 ONE) (by decide) ⟨42, by decide, by decide, by decide⟩

end Invjsible
